import Mathlib

/-!
Verification of the fuzzy voice-command matcher of `src/script.js`
(`levenshteinDistance`, `calculateSimilarity`, `findBestMatch`,
`processVoiceCommand`).

Strings are modelled as `List Char`; JS numbers are modelled as exact
rationals `ℚ` (all scores produced by the code are quotients of small
naturals).  The mutable `bestMatch` accumulator of the `forEach` loop is
modelled by a left fold, and the imperative DP table of
`levenshteinDistance` by the recurrence `levMatrix` its loops memoize
(together with `levenshteinDistanceRun`, a step-faithful fallible
re-execution of the table construction whose in-bounds success is proved).
-/

namespace PortfolioMatcher

/-- The DP table of `levenshteinDistance` in `src/script.js`:
`levMatrix str1 str2 i j` is the value the JS code stores in
`matrix[i][j]`.  The loops `matrix[i] = [i]` and `matrix[0][j] = j` give
the first two arms; the nested loop over `i = 1..str2.length`,
`j = 1..str1.length` fills each remaining cell from the three already
computed neighbours, comparing `str2.charAt(i-1)` with `str1.charAt(j-1)`
and taking `min(matrix[i-1][j-1]+1, matrix[i][j-1]+1, matrix[i-1][j]+1)`
when they differ. -/
def levMatrix (str1 str2 : List Char) : Nat → Nat → Nat
  | i, 0 => i
  | 0, j + 1 => j + 1
  | i + 1, j + 1 =>
    if str2.get? i = str1.get? j then
      levMatrix str1 str2 i j
    else
      min (levMatrix str1 str2 i j + 1)
        (min (levMatrix str1 str2 (i + 1) j + 1) (levMatrix str1 str2 i (j + 1) + 1))
termination_by i j => i + j

/-- The function `levenshteinDistance(str1, str2)` of `src/script.js`:
it returns `matrix[str2.length][str1.length]`. -/
def levenshteinDistance (str1 str2 : List Char) : Nat :=
  levMatrix str1 str2 str2.length str1.length

/-- The function `calculateSimilarity(str1, str2)` of `src/script.js`:
`longer`/`shorter` are chosen by `str1.length > str2.length`; if `longer`
is empty the function returns `1.0`, otherwise
`(longer.length - distance) / longer.length`. -/
def calculateSimilarity (str1 str2 : List Char) : ℚ :=
  let longer := if str1.length > str2.length then str1 else str2
  let shorter := if str1.length > str2.length then str2 else str1
  if longer.length = 0 then 1
  else ((longer.length : ℚ) - (levenshteinDistance longer shorter : ℚ)) / (longer.length : ℚ)

/-- The record `{ command, score }` that `findBestMatch` of `src/script.js`
builds; `command : null` is modelled by `none`. -/
structure MatchResult where
  command : Option (List Char)
  score : ℚ
deriving DecidableEq

/-- The body of the `commands.forEach(command => ...)` loop of
`findBestMatch` in `src/script.js`: compute the similarity score of the
current candidate and overwrite the accumulator exactly when the score is
strictly greater than the best score seen so far. -/
def findBestMatchStep (input : List Char) (bestMatch : MatchResult)
    (command : List Char) : MatchResult :=
  let score := calculateSimilarity input command
  if score > bestMatch.score then { command := some command, score := score } else bestMatch

/-- The function `findBestMatch(input, commands)` of `src/script.js`:
starting from `{ command: null, score: 0 }`, fold the loop body over the
candidate list (the iteration order of `commands.forEach`). -/
def findBestMatch (input : List Char) (commands : List (List Char)) : MatchResult :=
  commands.foldl (findBestMatchStep input) { command := none, score := 0 }

/-- Looking an action up in `this.config.voiceCommands` (a JS object used
as a map from phrase to handler closure), modelled as an association
list. -/
def lookupCommandAction {α : Type} : List (List Char × α) → List Char → Option α
  | [], _ => none
  | (k, a) :: rest, p => if k = p then some a else lookupCommandAction rest p

/-- The observable outcome of `processVoiceCommand` in `src/script.js`:
either the accepted branch (which reads `bestMatch.command` and invokes
the handler found for it in `config.voiceCommands`), or the
`'Command not recognized'` notification branch. -/
inductive VoiceOutcome (α : Type) where
  | executed (command : Option (List Char)) (action : Option α)
  | notRecognized
deriving DecidableEq

/-- The function `processVoiceCommand(command)` of `src/script.js`: the catalog keys are
`Object.keys(this.config.voiceCommands)` (modelled as the key list of the
association list `cfg`, in order); the best match is accepted exactly when
`bestMatch.score > 0.6`, in which case the action bound to
`bestMatch.command` is invoked. -/
def processVoiceCommand {α : Type} (cfg : List (List Char × α))
    (command : List Char) : VoiceOutcome α :=
  let commands := cfg.map Prod.fst
  let bestMatch := findBestMatch command commands
  if bestMatch.score > 6 / 10 then
    VoiceOutcome.executed bestMatch.command
      (bestMatch.command.bind (lookupCommandAction cfg))
  else
    VoiceOutcome.notRecognized

/-- One row-cell pass of the imperative table construction of
`levenshteinDistance`: given the previous row `prev`, the current
character `s2c = str2.charAt(i-1)`, the remaining characters of `str1`
from column `jm1 + 1` on, and the cell value `left = matrix[i][j-1]` just
written, produce the cells `matrix[i][j]` for `j = jm1+1 .. str1.length`.
Every table read (`prev.get? jm1` for `matrix[i-1][j-1]` and
`prev.get? (jm1+1)` for `matrix[i-1][j]`) is fallible: the result is
`none` if any access is out of bounds. -/
def levRowGo (s2c : Char) (prev : List Nat) : List Char → Nat → Nat → Option (List Nat)
  | [], _, _ => some []
  | c1 :: s1rest, jm1, left =>
    match prev.get? jm1, prev.get? (jm1 + 1) with
    | some diag, some up =>
      let cell := if s2c = c1 then diag else min (diag + 1) (min (left + 1) (up + 1))
      (levRowGo s2c prev s1rest (jm1 + 1) cell).map (cell :: ·)
    | _, _ => none

/-- The outer `i` loop of `levenshteinDistance`: build row `i` (whose cell
`matrix[i][0]` is `i`) from the previous row and recurse. -/
def levRows (s1 : List Char) : List Char → List Nat → Nat → Option (List Nat)
  | [], prev, _ => some prev
  | s2c :: s2rest, prev, i =>
    match levRowGo s2c prev s1 0 i with
    | some cells => levRows s1 s2rest (i :: cells) (i + 1)
    | none => none

/-- Step-faithful fallible re-execution of `levenshteinDistance`: start
from row `0 = [0, 1, ..., str1.length]`, build the remaining
`str2.length` rows, and read `matrix[str2.length][str1.length]`; `none`
if any table access was out of bounds. -/
def levenshteinDistanceRun (s1 s2 : List Char) : Option Nat :=
  match levRows s1 s2 (List.range (s1.length + 1)) 1 with
  | some lastRow => lastRow.get? s1.length
  | none => none

/-- Reference recursion for the edit distance (used to relate the DP table
to the minimal-edit-count specification): distance of two lists consuming
characters from the front. -/
def levRec : List Char → List Char → Nat
  | [], ys => ys.length
  | _ :: xs, [] => xs.length + 1
  | x :: xs, y :: ys =>
    if x = y then levRec xs ys
    else 1 + min (levRec xs ys) (min (levRec (x :: xs) ys) (levRec xs (y :: ys)))
termination_by xs ys => xs.length + ys.length

/-- A single edit in the sense of the specification's glossary: inserting,
deleting, or substituting one character at an arbitrary position. -/
inductive EditStep : List Char → List Char → Prop
  | insert (u v : List Char) (c : Char) : EditStep (u ++ v) (u ++ c :: v)
  | delete (u v : List Char) (c : Char) : EditStep (u ++ c :: v) (u ++ v)
  | subst (u v : List Char) (c d : Char) : EditStep (u ++ c :: v) (u ++ d :: v)

/-- The relation `Chain n xs ys`: `xs` can be transformed into `ys` by
`n` single character edits. -/
inductive Chain : Nat → List Char → List Char → Prop
  | zero (xs : List Char) : Chain 0 xs xs
  | succ {n : Nat} {xs zs ys : List Char} :
      EditStep xs zs → Chain n zs ys → Chain (n + 1) xs ys

/-! ### Basic facts about the reference recursion `levRec` -/

theorem levRec_nil_left (ys : List Char) : levRec [] ys = ys.length := by
  simp [levRec]

theorem levRec_nil_right (xs : List Char) : levRec xs [] = xs.length := by
  cases xs <;> simp [levRec]

theorem levRec_cons_cons (x y : Char) (xs ys : List Char) :
    levRec (x :: xs) (y :: ys) =
      if x = y then levRec xs ys
      else 1 + min (levRec xs ys) (min (levRec (x :: xs) ys) (levRec xs (y :: ys))) := by
  rw [levRec]

theorem levRec_self (xs : List Char) : levRec xs xs = 0 := by
  induction xs with
  | nil => simp [levRec_nil_left]
  | cons x xs ih => rw [levRec_cons_cons, if_pos rfl, ih]

theorem levRec_symm_aux :
    ∀ (n : Nat) (xs ys : List Char), xs.length + ys.length ≤ n →
      levRec xs ys = levRec ys xs := by
  intro n
  induction n with
  | zero =>
    intro xs ys h
    match xs, ys with
    | [], [] => rfl
    | [], _ :: _ => simp at h
    | _ :: _, _ => simp at h
  | succ n ih =>
    intro xs ys h
    match xs, ys with
    | [], ys => rw [levRec_nil_left, levRec_nil_right]
    | x :: xs, [] => rw [levRec_nil_left, levRec_nil_right]
    | x :: xs, y :: ys =>
      simp only [List.length_cons] at h
      rw [levRec_cons_cons, levRec_cons_cons]
      have h1 : levRec xs ys = levRec ys xs := ih xs ys (by omega)
      have h2 : levRec (x :: xs) ys = levRec ys (x :: xs) := ih (x :: xs) ys (by simp; omega)
      have h3 : levRec xs (y :: ys) = levRec (y :: ys) xs := ih xs (y :: ys) (by simp; omega)
      by_cases hxy : x = y
      · rw [if_pos hxy, if_pos hxy.symm, h1]
      · rw [if_neg hxy, if_neg (fun hh => hxy hh.symm), h1, h2, h3]
        omega

theorem levRec_symm (xs ys : List Char) : levRec xs ys = levRec ys xs :=
  levRec_symm_aux (xs.length + ys.length) xs ys le_rfl

theorem levRec_le_max_aux :
    ∀ (n : Nat) (xs ys : List Char), xs.length + ys.length ≤ n →
      levRec xs ys ≤ max xs.length ys.length := by
  intro n
  induction n with
  | zero =>
    intro xs ys h
    match xs, ys with
    | [], [] => simp [levRec_nil_left]
    | [], _ :: _ => simp at h
    | _ :: _, _ => simp at h
  | succ n ih =>
    intro xs ys h
    match xs, ys with
    | [], ys => simp [levRec_nil_left]
    | x :: xs, [] => simp [levRec_nil_right]
    | x :: xs, y :: ys =>
      simp only [List.length_cons] at h ⊢
      rw [levRec_cons_cons]
      have h1 := ih xs ys (by omega)
      by_cases hxy : x = y
      · rw [if_pos hxy]; omega
      · rw [if_neg hxy]; omega

theorem levRec_le_max (xs ys : List Char) : levRec xs ys ≤ max xs.length ys.length :=
  levRec_le_max_aux (xs.length + ys.length) xs ys le_rfl

/-! ### One head edit changes `levRec` by at most one -/

theorem levRec_head_aux :
    ∀ (n : Nat) (xs ys : List Char), xs.length + ys.length ≤ n →
      (∀ c, levRec (c :: xs) ys ≤ levRec xs ys + 1) ∧
        (∀ y, levRec xs ys ≤ levRec xs (y :: ys) + 1) := by
  intro n
  induction n with
  | zero =>
    intro xs ys h
    match xs, ys with
    | [], [] =>
      constructor
      · intro c; rw [levRec_nil_right, levRec_nil_right]; simp
      · intro y; rw [levRec_nil_left, levRec_nil_left]; simp
    | [], _ :: _ => simp at h
    | _ :: _, _ => simp at h
  | succ n ih =>
    intro xs ys h
    constructor
    · intro c
      match ys with
      | [] => rw [levRec_nil_right, levRec_nil_right]; simp
      | y :: ys =>
        simp only [List.length_cons] at h
        rw [levRec_cons_cons]
        by_cases hcy : c = y
        · rw [if_pos hcy]
          exact (ih xs ys (by omega)).2 y
        · rw [if_neg hcy]
          omega
    · intro y
      match xs with
      | [] => rw [levRec_nil_left, levRec_nil_left]; simp only [List.length_cons]; omega
      | x :: xs =>
        simp only [List.length_cons] at h
        rw [levRec_cons_cons (x := x) (y := y)]
        by_cases hxy : x = y
        · rw [if_pos hxy]
          exact (ih xs ys (by omega)).1 x
        · rw [if_neg hxy]
          have h1 : levRec (x :: xs) ys ≤ levRec xs ys + 1 := (ih xs ys (by omega)).1 x
          have h2 : levRec xs ys ≤ levRec xs (y :: ys) + 1 := (ih xs ys (by omega)).2 y
          omega

/-- Deleting the head character raises the distance by at most one. -/
theorem levRec_cons_left_le (xs ys : List Char) (c : Char) :
    levRec (c :: xs) ys ≤ levRec xs ys + 1 :=
  (levRec_head_aux (xs.length + ys.length) xs ys le_rfl).1 c

/-- Removing the head character of the second list raises the distance by
at most one. -/
theorem levRec_le_ins_right (xs ys : List Char) (y : Char) :
    levRec xs ys ≤ levRec xs (y :: ys) + 1 :=
  (levRec_head_aux (xs.length + ys.length) xs ys le_rfl).2 y

/-- Inserting a character at the head of the second list raises the
distance by at most one. -/
theorem levRec_ins_right_le (xs ys : List Char) (y : Char) :
    levRec xs (y :: ys) ≤ levRec xs ys + 1 := by
  rw [levRec_symm xs (y :: ys), levRec_symm xs ys]
  exact levRec_cons_left_le ys xs y

/-- Inserting a character at the head of the first list raises the
distance by at most one. -/
theorem levRec_le_cons_left (xs ys : List Char) (x : Char) :
    levRec xs ys ≤ levRec (x :: xs) ys + 1 := by
  rw [levRec_symm xs ys, levRec_symm (x :: xs) ys]
  exact levRec_le_ins_right ys xs x

/-- Substituting the head character changes the distance by at most one. -/
theorem levRec_subst_head (c d : Char) (v : List Char) :
    ∀ w, levRec (c :: v) w ≤ levRec (d :: v) w + 1 := by
  intro w
  induction w with
  | nil => rw [levRec_nil_right, levRec_nil_right]; simp
  | cons b w ih =>
    rw [levRec_cons_cons, levRec_cons_cons]
    by_cases hc : c = b <;> by_cases hd : d = b
    · rw [if_pos hc, if_pos hd]; omega
    · rw [if_pos hc, if_neg hd]
      have h3 : levRec v w ≤ levRec (d :: v) w + 1 := levRec_le_cons_left v w d
      have h4 : levRec v w ≤ levRec v (b :: w) + 1 := levRec_le_ins_right v w b
      omega
    · rw [if_neg hc, if_pos hd]; omega
    · rw [if_neg hc, if_neg hd]; omega

/-- Congruence of the one-edit bound under a common head character. -/
theorem levRec_cons_congr {p q : List Char}
    (h : ∀ w, levRec p w ≤ levRec q w + 1) (a : Char) :
    ∀ w, levRec (a :: p) w ≤ levRec (a :: q) w + 1 := by
  intro w
  induction w with
  | nil =>
    rw [levRec_nil_right, levRec_nil_right]
    have := h []
    rw [levRec_nil_right, levRec_nil_right] at this
    simp only [List.length_cons]
    omega
  | cons b w ih =>
    rw [levRec_cons_cons, levRec_cons_cons]
    by_cases hab : a = b
    · rw [if_pos hab, if_pos hab]; exact h w
    · rw [if_neg hab, if_neg hab]
      have h1 := h w
      have h2 := h (b :: w)
      omega

/-! ### Single edits, edit chains, and minimality of `levRec` -/

/-- A single edit anywhere in the first list changes the distance to any
third list by at most one. -/
theorem editStep_levRec_le {xs zs : List Char} (e : EditStep xs zs) :
    ∀ w, levRec xs w ≤ levRec zs w + 1 := by
  cases e with
  | insert u v c =>
    induction u with
    | nil => exact fun w => levRec_le_cons_left v w c
    | cons a u ih =>
      intro w
      simp only [List.cons_append]
      exact levRec_cons_congr ih a w
  | delete u v c =>
    induction u with
    | nil => exact fun w => levRec_cons_left_le v w c
    | cons a u ih =>
      intro w
      simp only [List.cons_append]
      exact levRec_cons_congr ih a w
  | subst u v c d =>
    induction u with
    | nil => exact levRec_subst_head c d v
    | cons a u ih =>
      intro w
      simp only [List.cons_append]
      exact levRec_cons_congr ih a w

/-- Any chain of `n` single edits from `xs` to `ys` witnesses
`levRec xs ys ≤ n`. -/
theorem chain_levRec_le {n : Nat} {xs ys : List Char} (h : Chain n xs ys) :
    levRec xs ys ≤ n := by
  induction h with
  | zero xs => exact le_of_eq (levRec_self xs)
  | succ e _ ih =>
    rename_i m as bs cs _
    have h1 := editStep_levRec_le e cs
    omega

theorem editStep_cons {xs ys : List Char} (c : Char) (e : EditStep xs ys) :
    EditStep (c :: xs) (c :: ys) := by
  cases e with
  | insert u v d => exact EditStep.insert (c :: u) v d
  | delete u v d => exact EditStep.delete (c :: u) v d
  | subst u v d d' => exact EditStep.subst (c :: u) v d d'

theorem chain_cons {n : Nat} {xs ys : List Char} (c : Char) (h : Chain n xs ys) :
    Chain n (c :: xs) (c :: ys) := by
  induction h with
  | zero xs => exact Chain.zero (c :: xs)
  | succ e _ ih => exact Chain.succ (editStep_cons c e) ih

theorem chain_snoc {n : Nat} {xs zs ys : List Char}
    (h : Chain n xs zs) (e : EditStep zs ys) : Chain (n + 1) xs ys := by
  induction h with
  | zero xs => exact Chain.succ e (Chain.zero ys)
  | succ e' _ ih => exact Chain.succ e' (ih e)

theorem chain_of_levRec_aux :
    ∀ (n : Nat) (xs ys : List Char), xs.length + ys.length ≤ n →
      Chain (levRec xs ys) xs ys := by
  intro n
  induction n with
  | zero =>
    intro xs ys h
    match xs, ys with
    | [], [] => rw [levRec_nil_left]; exact Chain.zero []
    | [], _ :: _ => simp at h
    | _ :: _, _ => simp at h
  | succ n ih =>
    intro xs ys h
    match xs, ys with
    | [], [] => rw [levRec_nil_left]; exact Chain.zero []
    | [], y :: ys =>
      simp only [List.length_cons, List.length_nil] at h
      rw [levRec_nil_left, List.length_cons]
      have hc : Chain ys.length [] ys := by
        have := ih [] ys (by simp; omega)
        rwa [levRec_nil_left] at this
      exact Chain.succ (EditStep.insert [] [] y) (chain_cons y hc)
    | x :: xs, [] =>
      simp only [List.length_cons, List.length_nil] at h
      rw [levRec_nil_right, List.length_cons]
      have hc : Chain xs.length xs [] := by
        have := ih xs [] (by simp; omega)
        rwa [levRec_nil_right] at this
      exact Chain.succ (EditStep.delete [] xs x) hc
    | x :: xs, y :: ys =>
      simp only [List.length_cons] at h
      rw [levRec_cons_cons]
      by_cases hxy : x = y
      · rw [if_pos hxy]
        subst hxy
        exact chain_cons x (ih xs ys (by omega))
      · rw [if_neg hxy]
        have ha : Chain (levRec xs ys) xs ys := ih xs ys (by omega)
        have hb : Chain (levRec (x :: xs) ys) (x :: xs) ys :=
          ih (x :: xs) ys (by simp; omega)
        have hd : Chain (levRec xs (y :: ys)) xs (y :: ys) :=
          ih xs (y :: ys) (by simp; omega)
        have hsplit :
            min (levRec xs ys) (min (levRec (x :: xs) ys) (levRec xs (y :: ys)))
                = levRec xs ys ∨
              min (levRec xs ys) (min (levRec (x :: xs) ys) (levRec xs (y :: ys)))
                = levRec (x :: xs) ys ∨
              min (levRec xs ys) (min (levRec (x :: xs) ys) (levRec xs (y :: ys)))
                = levRec xs (y :: ys) := by omega
        rcases hsplit with hm | hm | hm <;> rw [hm, Nat.add_comm]
        · exact Chain.succ (EditStep.subst [] xs x y) (chain_cons y ha)
        · exact chain_snoc hb (EditStep.insert [] ys y)
        · exact Chain.succ (EditStep.delete [] xs x) hd

/-- `levRec xs ys` single edits indeed transform `xs` into `ys`. -/
theorem chain_of_levRec (xs ys : List Char) : Chain (levRec xs ys) xs ys :=
  chain_of_levRec_aux (xs.length + ys.length) xs ys le_rfl

theorem editStep_reverse {xs ys : List Char} (e : EditStep xs ys) :
    EditStep xs.reverse ys.reverse := by
  cases e with
  | insert u v c =>
    rw [List.reverse_append, List.reverse_append, List.reverse_cons,
      List.append_assoc, List.singleton_append]
    exact EditStep.insert v.reverse u.reverse c
  | delete u v c =>
    rw [List.reverse_append, List.reverse_append, List.reverse_cons,
      List.append_assoc, List.singleton_append]
    exact EditStep.delete v.reverse u.reverse c
  | subst u v c d =>
    rw [List.reverse_append, List.reverse_append, List.reverse_cons,
      List.reverse_cons, List.append_assoc, List.append_assoc,
      List.singleton_append, List.singleton_append]
    exact EditStep.subst v.reverse u.reverse c d

theorem chain_reverse {n : Nat} {xs ys : List Char} (h : Chain n xs ys) :
    Chain n xs.reverse ys.reverse := by
  induction h with
  | zero xs => exact Chain.zero xs.reverse
  | succ e _ ih => exact Chain.succ (editStep_reverse e) ih

/-- The edit distance is invariant under reversing both lists. -/
theorem levRec_reverse (xs ys : List Char) :
    levRec xs.reverse ys.reverse = levRec xs ys := by
  apply Nat.le_antisymm
  · exact chain_levRec_le (chain_reverse (chain_of_levRec xs ys))
  · have := chain_levRec_le (chain_reverse (chain_of_levRec xs.reverse ys.reverse))
    simpa using this

/-! ### The DP table computes `levRec` -/

theorem levMatrix_left_col (s1 s2 : List Char) (i : Nat) :
    levMatrix s1 s2 i 0 = i := by
  simp [levMatrix]

theorem levMatrix_top_row (s1 s2 : List Char) (j : Nat) :
    levMatrix s1 s2 0 (j + 1) = j + 1 := by
  simp [levMatrix]

theorem levMatrix_succ_succ (s1 s2 : List Char) (i j : Nat) :
    levMatrix s1 s2 (i + 1) (j + 1) =
      if s2.get? i = s1.get? j then levMatrix s1 s2 i j
      else
        min (levMatrix s1 s2 i j + 1)
          (min (levMatrix s1 s2 (i + 1) j + 1) (levMatrix s1 s2 i (j + 1) + 1)) := by
  rw [levMatrix]

theorem reverse_take_succ {l : List Char} {j : Nat} (h : j < l.length) :
    (l.take (j + 1)).reverse = l.get ⟨j, h⟩ :: (l.take j).reverse := by
  rw [List.take_succ, List.getElem?_eq_getElem h]
  simp [List.get_eq_getElem]

theorem levMatrix_eq_levRec_aux (s1 s2 : List Char) :
    ∀ (n i j : Nat), i + j ≤ n → i ≤ s2.length → j ≤ s1.length →
      levMatrix s1 s2 i j = levRec ((s1.take j).reverse) ((s2.take i).reverse) := by
  intro n
  induction n with
  | zero =>
    intro i j hn _ _
    have hi : i = 0 := by omega
    have hj : j = 0 := by omega
    subst hi; subst hj
    rw [levMatrix_left_col]
    simp [levRec_nil_left]
  | succ n ih =>
    intro i j hn hi hj
    match i, j with
    | i, 0 =>
      rw [levMatrix_left_col]
      simp only [List.take_zero, List.reverse_nil, levRec_nil_left,
        List.length_reverse, List.length_take]
      omega
    | 0, j + 1 =>
      rw [levMatrix_top_row]
      simp only [List.take_zero, List.reverse_nil, levRec_nil_right,
        List.length_reverse, List.length_take]
      omega
    | i + 1, j + 1 =>
      have hi' : i < s2.length := by omega
      have hj' : j < s1.length := by omega
      have e1 : s1.get? j = some (s1.get ⟨j, hj'⟩) := List.get?_eq_get hj'
      have e2 : s2.get? i = some (s2.get ⟨i, hi'⟩) := List.get?_eq_get hi'
      rw [reverse_take_succ hj', reverse_take_succ hi', levRec_cons_cons,
        levMatrix_succ_succ, e1, e2]
      have ha := ih i j (by omega) (by omega) (by omega)
      have hb := ih (i + 1) j (by omega) (by omega) (by omega)
      have hd := ih i (j + 1) (by omega) (by omega) (by omega)
      rw [reverse_take_succ hi'] at hb
      rw [reverse_take_succ hj'] at hd
      by_cases hc : s1.get ⟨j, hj'⟩ = s2.get ⟨i, hi'⟩
      · rw [if_pos (by rw [hc]), if_pos hc]
        exact ha
      · rw [if_neg (fun hh => hc (Option.some.inj hh).symm), if_neg hc,
          ha, hb, hd]
        omega

/-- The value `matrix[str2.length][str1.length]` returned by the source's
`levenshteinDistance` is the reference edit distance. -/
theorem levenshteinDistance_eq_levRec (s1 s2 : List Char) :
    levenshteinDistance s1 s2 = levRec s1 s2 := by
  unfold levenshteinDistance
  rw [levMatrix_eq_levRec_aux s1 s2 (s2.length + s1.length) s2.length s1.length
    le_rfl le_rfl le_rfl]
  rw [List.take_length, List.take_length, levRec_reverse]

theorem levenshteinDistance_symm (s1 s2 : List Char) :
    levenshteinDistance s1 s2 = levenshteinDistance s2 s1 := by
  rw [levenshteinDistance_eq_levRec, levenshteinDistance_eq_levRec, levRec_symm]

theorem levenshteinDistance_self (s : List Char) : levenshteinDistance s s = 0 := by
  rw [levenshteinDistance_eq_levRec, levRec_self]

theorem levenshteinDistance_le_max (s1 s2 : List Char) :
    levenshteinDistance s1 s2 ≤ max s1.length s2.length := by
  rw [levenshteinDistance_eq_levRec]
  exact levRec_le_max s1 s2

/-! ### The imperative table construction succeeds and agrees with the
table recurrence -/

theorem levMatrix_zero_row (s1 s2 : List Char) (j : Nat) :
    levMatrix s1 s2 0 j = j := by
  cases j with
  | zero => exact levMatrix_left_col s1 s2 0
  | succ j => exact levMatrix_top_row s1 s2 j

theorem levRowGo_spec (s1 s2 : List Char) (i : Nat) (hi : i < s2.length) :
    ∀ (s1rest : List Char) (jm1 : Nat), s1rest = s1.drop jm1 → jm1 ≤ s1.length →
      levRowGo (s2.get ⟨i, hi⟩) ((List.range (s1.length + 1)).map (levMatrix s1 s2 i))
          s1rest jm1 (levMatrix s1 s2 (i + 1) jm1)
        = some ((List.range' (jm1 + 1) (s1.length - jm1)).map (levMatrix s1 s2 (i + 1))) := by
  intro s1rest
  induction s1rest with
  | nil =>
    intro jm1 h hle
    have hj : s1.length ≤ jm1 := by
      by_contra hcon
      rw [List.drop_eq_getElem_cons (by omega)] at h
      exact List.noConfusion h
    have hz : s1.length - jm1 = 0 := by omega
    rw [hz]
    simp [levRowGo]
  | cons c1 rest ih =>
    intro jm1 h hle
    have hlt : jm1 < s1.length := by
      by_contra hcon
      rw [List.drop_eq_nil_of_le (by omega)] at h
      exact List.noConfusion h
    rw [List.drop_eq_getElem_cons hlt] at h
    injection h with hc1 hrest
    have hp1 : ((List.range (s1.length + 1)).map (levMatrix s1 s2 i)).get? jm1
        = some (levMatrix s1 s2 i jm1) := by
      rw [List.get?_map, List.get?_range (by omega)]
      rfl
    have hp2 : ((List.range (s1.length + 1)).map (levMatrix s1 s2 i)).get? (jm1 + 1)
        = some (levMatrix s1 s2 i (jm1 + 1)) := by
      rw [List.get?_map, List.get?_range (by omega)]
      rfl
    have hcell : (if s2.get ⟨i, hi⟩ = c1 then levMatrix s1 s2 i jm1
        else min (levMatrix s1 s2 i jm1 + 1)
          (min (levMatrix s1 s2 (i + 1) jm1 + 1) (levMatrix s1 s2 i (jm1 + 1) + 1)))
        = levMatrix s1 s2 (i + 1) (jm1 + 1) := by
      rw [levMatrix_succ_succ, List.get?_eq_getElem?, List.get?_eq_getElem?,
        List.getElem?_eq_getElem hi, List.getElem?_eq_getElem hlt]
      subst hc1
      simp [List.get_eq_getElem]
    rw [levRowGo, hp1, hp2]
    simp only []
    rw [hcell, ih (jm1 + 1) hrest (by omega)]
    rw [show s1.length - jm1 = (s1.length - (jm1 + 1)) + 1 from by omega,
      List.range'_succ, List.map_cons, Option.map_some']

theorem map_levMatrix_zero (s1 s2 : List Char) :
    (List.range (s1.length + 1)).map (levMatrix s1 s2 0) = List.range (s1.length + 1) := by
  have h : ∀ j ∈ List.range (s1.length + 1), levMatrix s1 s2 0 j = j :=
    fun j _ => levMatrix_zero_row s1 s2 j
  rw [List.map_congr_left h, List.map_id']

theorem row_succ_decomp (s1 s2 : List Char) (k : Nat) :
    (List.range (s1.length + 1)).map (levMatrix s1 s2 (k + 1))
      = (k + 1) :: (List.range' 1 s1.length).map (levMatrix s1 s2 (k + 1)) := by
  rw [List.range_eq_range', show s1.length + 1 = s1.length + 1 from rfl, List.range'_succ,
    List.map_cons, levMatrix_left_col]

theorem levRows_spec (s1 s2 : List Char) :
    ∀ (s2rest : List Char) (k : Nat), s2rest = s2.drop k → k ≤ s2.length →
      levRows s1 s2rest ((List.range (s1.length + 1)).map (levMatrix s1 s2 k)) (k + 1)
        = some ((List.range (s1.length + 1)).map (levMatrix s1 s2 s2.length)) := by
  intro s2rest
  induction s2rest with
  | nil =>
    intro k h hle
    have hk : k = s2.length := by
      by_contra hcon
      rw [List.drop_eq_getElem_cons (by omega)] at h
      exact List.noConfusion h
    subst hk
    rw [levRows]
  | cons s2c s2rest ih =>
    intro k h hle
    have hlt : k < s2.length := by
      by_contra hcon
      rw [List.drop_eq_nil_of_le (by omega)] at h
      exact List.noConfusion h
    rw [List.drop_eq_getElem_cons hlt] at h
    injection h with hc hrest
    rw [levRows]
    have hrow := levRowGo_spec s1 s2 k hlt s1 0 (by rfl) (by omega)
    rw [levMatrix_left_col] at hrow
    rw [show s2.get ⟨k, hlt⟩ = s2c from by rw [hc]; exact List.get_eq_getElem .. ] at hrow
    rw [Nat.sub_zero] at hrow
    rw [hrow]
    simp only []
    rw [show (k + 1) :: (List.range' (0 + 1) s1.length).map (levMatrix s1 s2 (k + 1))
        = (List.range (s1.length + 1)).map (levMatrix s1 s2 (k + 1)) from by
      rw [row_succ_decomp]]
    exact ih (k + 1) hrest (by omega)

/-- The fallible re-execution of `levenshteinDistance` never goes out of
bounds and returns exactly the value of the source function: totality of
the DP-table construction. -/
theorem levenshteinDistanceRun_eq (s1 s2 : List Char) :
    levenshteinDistanceRun s1 s2 = some (levenshteinDistance s1 s2) := by
  unfold levenshteinDistanceRun
  rw [show List.range (s1.length + 1)
      = (List.range (s1.length + 1)).map (levMatrix s1 s2 0) from
    (map_levMatrix_zero s1 s2).symm]
  rw [show (1 : Nat) = 0 + 1 from rfl]
  rw [levRows_spec s1 s2 s2 0 (by rfl) (by omega)]
  simp only []
  rw [List.get?_eq_getElem?, List.getElem?_map,
    List.getElem?_range (by omega), Option.map_some']
  rfl

/-- Kernel-computable evaluation principle for `levenshteinDistance`. -/
theorem levenshteinDistance_eval {s1 s2 : List Char} {d : Nat}
    (h : levenshteinDistanceRun s1 s2 = some d) : levenshteinDistance s1 s2 = d := by
  have h2 := levenshteinDistanceRun_eq s1 s2
  rw [h] at h2
  exact (Option.some.inj h2).symm

/-! ### Properties of `calculateSimilarity` -/

/-- Case form of `calculateSimilarity` with the `longer`/`shorter`
selection resolved. -/
theorem calculateSimilarity_eq (s1 s2 : List Char) :
    calculateSimilarity s1 s2 =
      if s1.length > s2.length then
        if s1.length = 0 then 1
        else ((s1.length : ℚ) - (levenshteinDistance s1 s2 : ℚ)) / (s1.length : ℚ)
      else
        if s2.length = 0 then 1
        else ((s2.length : ℚ) - (levenshteinDistance s2 s1 : ℚ)) / (s2.length : ℚ) := by
  unfold calculateSimilarity
  by_cases h : s1.length > s2.length <;> simp [h]

theorem sim_frac_nonneg {n d : ℕ} (h : d ≤ n) : 0 ≤ ((n : ℚ) - (d : ℚ)) / (n : ℚ) := by
  apply div_nonneg
  · have : (d : ℚ) ≤ (n : ℚ) := by exact_mod_cast h
    linarith
  · positivity

theorem sim_frac_le_one {n d : ℕ} (hn : 0 < n) : ((n : ℚ) - (d : ℚ)) / (n : ℚ) ≤ 1 := by
  rw [div_le_one (by exact_mod_cast hn)]
  have : (0 : ℚ) ≤ (d : ℚ) := by positivity
  linarith

theorem calculateSimilarity_nonneg (s1 s2 : List Char) :
    0 ≤ calculateSimilarity s1 s2 := by
  rw [calculateSimilarity_eq]
  by_cases h : s1.length > s2.length
  · rw [if_pos h]
    by_cases h0 : s1.length = 0
    · rw [if_pos h0]; norm_num
    · rw [if_neg h0]
      exact sim_frac_nonneg (le_trans (levenshteinDistance_le_max s1 s2) (by omega))
  · rw [if_neg h]
    by_cases h0 : s2.length = 0
    · rw [if_pos h0]; norm_num
    · rw [if_neg h0]
      exact sim_frac_nonneg (le_trans (levenshteinDistance_le_max s2 s1) (by omega))

theorem calculateSimilarity_le_one (s1 s2 : List Char) :
    calculateSimilarity s1 s2 ≤ 1 := by
  rw [calculateSimilarity_eq]
  by_cases h : s1.length > s2.length
  · rw [if_pos h]
    by_cases h0 : s1.length = 0
    · rw [if_pos h0]
    · rw [if_neg h0]; exact sim_frac_le_one (by omega)
  · rw [if_neg h]
    by_cases h0 : s2.length = 0
    · rw [if_pos h0]
    · rw [if_neg h0]; exact sim_frac_le_one (by omega)

theorem calculateSimilarity_self_eq_one (s : List Char) :
    calculateSimilarity s s = 1 := by
  rw [calculateSimilarity_eq, if_neg (lt_irrefl s.length)]
  by_cases h0 : s.length = 0
  · rw [if_pos h0]
  · rw [if_neg h0, levenshteinDistance_self]
    rw [show ((0 : ℕ) : ℚ) = 0 from rfl, sub_zero]
    exact div_self (by exact_mod_cast h0)

theorem calculateSimilarity_symm (s1 s2 : List Char) :
    calculateSimilarity s1 s2 = calculateSimilarity s2 s1 := by
  rw [calculateSimilarity_eq, calculateSimilarity_eq]
  rcases Nat.lt_trichotomy s2.length s1.length with hlt | heq | hgt
  · rw [if_pos (show s1.length > s2.length from hlt),
      if_neg (show ¬s2.length > s1.length from by omega)]
  · rw [if_neg (show ¬s1.length > s2.length from by omega),
      if_neg (show ¬s2.length > s1.length from by omega), heq,
      levenshteinDistance_symm s2 s1]
  · rw [if_neg (show ¬s1.length > s2.length from by omega),
      if_pos (show s2.length > s1.length from hgt)]

/-! ### Behaviour of the `findBestMatch` fold -/

/-- Master invariant of the `forEach` loop of `findBestMatch`: either no
candidate ever beat the accumulator (which is then returned unchanged),
or the result records the first candidate achieving the maximal score
among the accumulator and all candidates, every earlier candidate scoring
strictly lower. -/
theorem findBestMatch_fold_spec (input : List Char) :
    ∀ (cs : List (List Char)) (acc : MatchResult),
      (cs.foldl (findBestMatchStep input) acc = acc ∧
        ∀ c ∈ cs, calculateSimilarity input c ≤ acc.score) ∨
      (∃ (i : Nat) (hi : i < cs.length),
        (cs.foldl (findBestMatchStep input) acc).command = some (cs.get ⟨i, hi⟩) ∧
        (cs.foldl (findBestMatchStep input) acc).score
          = calculateSimilarity input (cs.get ⟨i, hi⟩) ∧
        acc.score < calculateSimilarity input (cs.get ⟨i, hi⟩) ∧
        (∀ (j : Nat) (hj : j < cs.length), j < i →
          calculateSimilarity input (cs.get ⟨j, hj⟩)
            < calculateSimilarity input (cs.get ⟨i, hi⟩)) ∧
        (∀ (j : Nat) (hj : j < cs.length),
          calculateSimilarity input (cs.get ⟨j, hj⟩)
            ≤ calculateSimilarity input (cs.get ⟨i, hi⟩))) := by
  intro cs
  induction cs with
  | nil =>
    intro acc
    left
    exact ⟨rfl, by simp⟩
  | cons c cs ih =>
    intro acc
    rw [List.foldl_cons]
    by_cases hup : calculateSimilarity input c > acc.score
    · have hstep : findBestMatchStep input acc c
          = { command := some c, score := calculateSimilarity input c } := by
        unfold findBestMatchStep
        rw [if_pos hup]
      rw [hstep]
      rcases ih { command := some c, score := calculateSimilarity input c } with
        ⟨hfold, hall⟩ | ⟨i, hi, hcmd, hscore, hacc, hprev, hmax⟩
      · right
        refine ⟨0, by simp, ?_, ?_, ?_, ?_, ?_⟩
        · rw [hfold]
          rfl
        · rw [hfold]
          rfl
        · exact hup
        · intro j hj hji
          omega
        · intro j hj
          match j with
          | 0 => exact le_refl _
          | j + 1 =>
            exact hall (cs.get ⟨j, by simpa using hj⟩) (cs.get_mem ..)
      · right
        refine ⟨i + 1, by simpa using hi, ?_, ?_, ?_, ?_, ?_⟩
        · exact hcmd
        · exact hscore
        · exact lt_trans hup hacc
        · intro j hj hji
          match j with
          | 0 => exact hacc
          | j + 1 => exact hprev j (by simpa using hj) (by omega)
        · intro j hj
          match j with
          | 0 => exact le_of_lt hacc
          | j + 1 => exact hmax j (by simpa using hj)
    · have hstep : findBestMatchStep input acc c = acc := by
        unfold findBestMatchStep
        rw [if_neg hup]
      rw [hstep]
      rcases ih acc with ⟨hfold, hall⟩ | ⟨i, hi, hcmd, hscore, hacc, hprev, hmax⟩
      · left
        refine ⟨hfold, ?_⟩
        intro c' hc'
        rcases List.mem_cons.mp hc' with hc' | hc'
        · rw [hc']; exact le_of_not_lt hup
        · exact hall c' hc'
      · right
        refine ⟨i + 1, by simpa using hi, hcmd, hscore, hacc, ?_, ?_⟩
        · intro j hj hji
          match j with
          | 0 => exact lt_of_le_of_lt (le_of_not_lt hup) hacc
          | j + 1 => exact hprev j (by simpa using hj) (by omega)
        · intro j hj
          match j with
          | 0 => exact le_of_lt (lt_of_le_of_lt (le_of_not_lt hup) hacc)
          | j + 1 => exact hmax j (by simpa using hj)

/-- The fold of `findBestMatch` either returns the untouched initial
record `{ command: null, score: 0 }` (and then no candidate scored above
`0`), or it returns the first candidate achieving the maximal, strictly
positive, similarity score. -/
theorem findBestMatch_cases (input : List Char) (cs : List (List Char)) :
    (findBestMatch input cs = { command := none, score := 0 } ∧
      ∀ c ∈ cs, calculateSimilarity input c ≤ 0) ∨
    (∃ (i : Nat) (hi : i < cs.length),
      (findBestMatch input cs).command = some (cs.get ⟨i, hi⟩) ∧
      (findBestMatch input cs).score = calculateSimilarity input (cs.get ⟨i, hi⟩) ∧
      0 < calculateSimilarity input (cs.get ⟨i, hi⟩) ∧
      (∀ (j : Nat) (hj : j < cs.length), j < i →
        calculateSimilarity input (cs.get ⟨j, hj⟩)
          < calculateSimilarity input (cs.get ⟨i, hi⟩)) ∧
      (∀ (j : Nat) (hj : j < cs.length),
        calculateSimilarity input (cs.get ⟨j, hj⟩)
          ≤ calculateSimilarity input (cs.get ⟨i, hi⟩))) := by
  rcases findBestMatch_fold_spec input cs { command := none, score := 0 } with
    ⟨hfold, hall⟩ | ⟨i, hi, hcmd, hscore, hacc, hprev, hmax⟩
  · exact Or.inl ⟨hfold, hall⟩
  · exact Or.inr ⟨i, hi, hcmd, hscore, hacc, hprev, hmax⟩

theorem findBestMatch_score_nonneg (input : List Char) (cs : List (List Char)) :
    0 ≤ (findBestMatch input cs).score := by
  rcases findBestMatch_cases input cs with ⟨hfold, _⟩ | ⟨i, hi, _, hscore, hpos, _, _⟩
  · rw [hfold]
  · rw [hscore]
    exact le_of_lt hpos

theorem findBestMatch_score_is_max (input : List Char) (cs : List (List Char)) :
    ∀ c ∈ cs, calculateSimilarity input c ≤ (findBestMatch input cs).score := by
  intro c hc
  rcases findBestMatch_cases input cs with ⟨hfold, hall⟩ | ⟨i, hi, _, hscore, _, _, hmax⟩
  · rw [hfold]
    exact hall c hc
  · rw [hscore]
    obtain ⟨⟨j, hj⟩, hg⟩ := List.mem_iff_get.mp hc
    rw [← hg]
    exact hmax j hj

theorem findBestMatch_command_spec (input : List Char) (cs : List (List Char))
    (c : List Char) (h : (findBestMatch input cs).command = some c) :
    c ∈ cs ∧ (findBestMatch input cs).score = calculateSimilarity input c := by
  rcases findBestMatch_cases input cs with ⟨hfold, _⟩ | ⟨i, hi, hcmd, hscore, _, _, _⟩
  · rw [hfold] at h
    exact Option.noConfusion h
  · rw [hcmd] at h
    have hc : cs.get ⟨i, hi⟩ = c := Option.some.inj h
    subst hc
    exact ⟨cs.get_mem .., hscore⟩

theorem lookupCommandAction_of_mem {α : Type} (cfg : List (List Char × α))
    (p : List Char) (h : p ∈ cfg.map Prod.fst) :
    ∃ a, lookupCommandAction cfg p = some a ∧ (p, a) ∈ cfg := by
  induction cfg with
  | nil => simp at h
  | cons e cfg ih =>
    by_cases hk : e.1 = p
    · refine ⟨e.2, ?_, ?_⟩
      · rw [show lookupCommandAction (e :: cfg) p
            = if e.1 = p then some e.2 else lookupCommandAction cfg p from rfl,
          if_pos hk]
      · subst hk
        exact List.mem_cons_self e cfg
    · rcases List.mem_cons.mp (show p ∈ e.1 :: cfg.map Prod.fst from h) with hp | hp
      · exact absurd hp.symm hk
      · obtain ⟨a, ha, hmem⟩ := ih hp
        refine ⟨a, ?_, List.mem_cons_of_mem _ hmem⟩
        rw [show lookupCommandAction (e :: cfg) p
            = if e.1 = p then some e.2 else lookupCommandAction cfg p from rfl,
          if_neg hk, ha]

/-! ### Concrete evaluations used by the witnesses -/

theorem sim_a_b_eq_zero : calculateSimilarity ['a'] ['b'] = 0 := by
  rw [calculateSimilarity_eq,
    if_neg (show ¬(['a'] : List Char).length > (['b'] : List Char).length from by decide),
    if_neg (show ¬(['b'] : List Char).length = 0 from by decide),
    levenshteinDistance_eval (show levenshteinDistanceRun ['b'] ['a'] = some 1 from by decide),
    show ((['b'] : List Char).length : ℚ) = 1 from by norm_num]
  norm_num

theorem findBestMatch_single_a :
    findBestMatch ['a'] [['a']] = { command := some ['a'], score := 1 } := by
  have hs := calculateSimilarity_self_eq_one ['a']
  simp [findBestMatch, findBestMatchStep, hs]

theorem findBestMatch_pair_a :
    findBestMatch ['a'] [['a'], ['a']] = { command := some ['a'], score := 1 } := by
  have hs := calculateSimilarity_self_eq_one ['a']
  simp [findBestMatch, findBestMatchStep, hs]

theorem findBestMatch_single_b :
    findBestMatch ['a'] [['b']] = { command := none, score := 0 } := by
  simp [findBestMatch, findBestMatchStep, sim_a_b_eq_zero]

/-! ### The claims -/

/-- C1, counterexample: the catalog `["b"]` is non-empty, yet
`findBestMatch("a", ["b"])` returns an absent phrase (with score `0`),
because the only candidate scores `0` and the strict comparison
`score > bestMatch.score` never fires — so an absent phrase does not
denote only the empty-catalog case. -/
theorem findBestMatch_null_on_nonempty_catalog :
    ([['b']] : List (List Char)) ≠ [] ∧
      (findBestMatch ['a'] [['b']]).command = none ∧
      (findBestMatch ['a'] [['b']]).score = 0 := by
  refine ⟨by decide, ?_, ?_⟩ <;> rw [findBestMatch_single_b]

/-- C1 (amended): `findBestMatch` returns `{ command, score }` where the
phrase is absent exactly when every catalog candidate has similarity `0`
to the input (in particular when the catalog is empty), in which case the
result is exactly `{ command: null, score: 0 }`; whenever the phrase is
present it is a catalog candidate achieving the highest similarity and
the score is its similarity. -/
theorem findBestMatch_result_spec (input : List Char) (commands : List (List Char)) :
    ((findBestMatch input commands).command = none ↔
      ∀ c ∈ commands, calculateSimilarity input c = 0) ∧
    ((findBestMatch input commands).command = none →
      findBestMatch input commands = { command := none, score := 0 }) ∧
    (∀ c, (findBestMatch input commands).command = some c →
      c ∈ commands ∧
      (findBestMatch input commands).score = calculateSimilarity input c ∧
      ∀ c' ∈ commands,
        calculateSimilarity input c' ≤ calculateSimilarity input c) := by
  refine ⟨⟨?_, ?_⟩, ?_, ?_⟩
  · intro h c hc
    rcases findBestMatch_cases input commands with ⟨hfold, hall⟩ | ⟨i, hi, hcmd, _, _, _, _⟩
    · exact le_antisymm (hall c hc) (calculateSimilarity_nonneg input c)
    · rw [hcmd] at h
      exact Option.noConfusion h
  · intro hall
    rcases findBestMatch_cases input commands with ⟨hfold, _⟩ | ⟨i, hi, hcmd, _, hpos, _, _⟩
    · rw [hfold]
    · have h0 := hall (commands.get ⟨i, hi⟩) (commands.get_mem ..)
      rw [h0] at hpos
      exact absurd hpos (lt_irrefl 0)
  · intro h
    rcases findBestMatch_cases input commands with ⟨hfold, _⟩ | ⟨i, hi, hcmd, _, _, _, _⟩
    · exact hfold
    · rw [hcmd] at h
      exact Option.noConfusion h
  · intro c h
    obtain ⟨hmem, hscore⟩ := findBestMatch_command_spec input commands c h
    refine ⟨hmem, hscore, ?_⟩
    intro c' hc'
    have hle := findBestMatch_score_is_max input commands c' hc'
    rw [hscore] at hle
    exact hle

/-- C1 witness: the amended characterization applied at input `"a"` and
catalog `["a"]`, whose best match is the phrase `"a"` with score `1`. -/
theorem findBestMatch_result_spec_witness :
    ['a'] ∈ ([['a']] : List (List Char)) ∧
      (findBestMatch ['a'] [['a']]).score = calculateSimilarity ['a'] ['a'] ∧
      ∀ c' ∈ ([['a']] : List (List Char)),
        calculateSimilarity ['a'] c' ≤ calculateSimilarity ['a'] ['a'] :=
  (findBestMatch_result_spec ['a'] [['a']]).2.2 ['a'] (by rw [findBestMatch_single_a])

/-- C2: `levenshteinDistance a b` is the least number of single-character
insertions, deletions, or substitutions (each of cost 1, no
transpositions) transforming `a` into `b`; in particular the distance
from `"kitten"` to `"sitting"` is `3` and the similarity is `(7-3)/7`. -/
theorem levenshteinDistance_minimal_edits :
    (∀ a b : List Char, IsLeast {n : ℕ | Chain n a b} (levenshteinDistance a b)) ∧
      levenshteinDistance "kitten".data "sitting".data = 3 ∧
      calculateSimilarity "kitten".data "sitting".data = ((7 - 3) / 7 : ℚ) := by
  refine ⟨?_, ?_, ?_⟩
  · intro a b
    constructor
    · show Chain (levenshteinDistance a b) a b
      rw [levenshteinDistance_eq_levRec]
      exact chain_of_levRec a b
    · intro n hn
      rw [levenshteinDistance_eq_levRec]
      exact chain_levRec_le hn
  · exact levenshteinDistance_eval (by decide)
  · rw [calculateSimilarity_eq,
      if_neg (show ¬("kitten".data).length > ("sitting".data).length from by decide),
      if_neg (show ¬("sitting".data).length = 0 from by decide),
      levenshteinDistance_eval
        (show levenshteinDistanceRun "sitting".data "kitten".data = some 3 from by decide),
      show (("sitting".data).length : ℚ) = 7 from by norm_num]
    norm_num

/-- C2 witness: the lower-bound half applied to the concrete one-step
chain substituting `'a'` by `'b'`. -/
theorem levenshteinDistance_minimal_edits_witness :
    levenshteinDistance ['a'] ['b'] ≤ 1 :=
  (levenshteinDistance_minimal_edits.1 ['a'] ['b']).2
    (Chain.succ (EditStep.subst [] [] 'a' 'b') (Chain.zero ['b']))

/-- C3: `calculateSimilarity` is symmetric in its two string arguments,
including when the two strings have equal length. -/
theorem calculateSimilarity_symmetric (a b : List Char) :
    calculateSimilarity a b = calculateSimilarity b a :=
  calculateSimilarity_symm a b

/-- C4: every similarity score lies in the closed interval `[0, 1]`. -/
theorem calculateSimilarity_in_unit_interval (a b : List Char) :
    0 ≤ calculateSimilarity a b ∧ calculateSimilarity a b ≤ 1 :=
  ⟨calculateSimilarity_nonneg a b, calculateSimilarity_le_one a b⟩

/-- C5: whenever `findBestMatch` returns a phrase, it is the first
candidate in iteration order achieving the maximal similarity score:
every earlier candidate scores strictly lower and no candidate scores
higher, so a later candidate of equal score never overwrites it. -/
theorem findBestMatch_first_seen_wins (input : List Char) (cs : List (List Char))
    (c : List Char) (h : (findBestMatch input cs).command = some c) :
    ∃ (i : Nat) (hi : i < cs.length),
      cs.get ⟨i, hi⟩ = c ∧
      (findBestMatch input cs).score = calculateSimilarity input c ∧
      (∀ (j : Nat) (hj : j < cs.length), j < i →
        calculateSimilarity input (cs.get ⟨j, hj⟩) < calculateSimilarity input c) ∧
      (∀ (j : Nat) (hj : j < cs.length),
        calculateSimilarity input (cs.get ⟨j, hj⟩) ≤ calculateSimilarity input c) := by
  rcases findBestMatch_cases input cs with ⟨hfold, _⟩ | ⟨i, hi, hcmd, hscore, _, hprev, hmax⟩
  · rw [hfold] at h
    exact Option.noConfusion h
  · rw [hcmd] at h
    obtain hc := Option.some.inj h
    subst hc
    exact ⟨i, hi, rfl, hscore, hprev, hmax⟩

/-- C5 witness: on the catalog `["a", "a"]`, both candidates score `1`
and the winner is the first occurrence. -/
theorem findBestMatch_first_seen_wins_witness :
    ∃ (i : Nat) (hi : i < ([['a'], ['a']] : List (List Char)).length),
      ([['a'], ['a']] : List (List Char)).get ⟨i, hi⟩ = ['a'] ∧
      (findBestMatch ['a'] [['a'], ['a']]).score = calculateSimilarity ['a'] ['a'] ∧
      (∀ (j : Nat) (hj : j < ([['a'], ['a']] : List (List Char)).length), j < i →
        calculateSimilarity ['a'] (([['a'], ['a']] : List (List Char)).get ⟨j, hj⟩)
          < calculateSimilarity ['a'] ['a']) ∧
      (∀ (j : Nat) (hj : j < ([['a'], ['a']] : List (List Char)).length),
        calculateSimilarity ['a'] (([['a'], ['a']] : List (List Char)).get ⟨j, hj⟩)
          ≤ calculateSimilarity ['a'] ['a']) :=
  findBestMatch_first_seen_wins ['a'] [['a'], ['a']] ['a'] (by rw [findBestMatch_pair_a])

/-- C6: `processVoiceCommand` accepts (invoking the action bound to the
winning phrase) exactly when the best score is strictly greater than
`0.6`; at or below the threshold it reports the command as not
recognized and no action is invoked. -/
theorem processVoiceCommand_threshold {α : Type} (cfg : List (List Char × α))
    (command : List Char) :
    ((findBestMatch command (cfg.map Prod.fst)).score > 6 / 10 →
      ∃ (c : List Char) (a : α),
        (findBestMatch command (cfg.map Prod.fst)).command = some c ∧
        (c, a) ∈ cfg ∧
        processVoiceCommand cfg command = VoiceOutcome.executed (some c) (some a)) ∧
    ((findBestMatch command (cfg.map Prod.fst)).score ≤ 6 / 10 →
      processVoiceCommand cfg command = VoiceOutcome.notRecognized) := by
  constructor
  · intro hgt
    have hpos : 0 < (findBestMatch command (cfg.map Prod.fst)).score :=
      lt_trans (by norm_num) hgt
    rcases findBestMatch_cases command (cfg.map Prod.fst) with
      ⟨hfold, _⟩ | ⟨i, hi, hcmd, _, _, _, _⟩
    · rw [hfold] at hpos
      norm_num at hpos
    · have hmem : (cfg.map Prod.fst).get ⟨i, hi⟩ ∈ cfg.map Prod.fst :=
        (cfg.map Prod.fst).get_mem ..
      obtain ⟨a, ha, hamem⟩ :=
        lookupCommandAction_of_mem cfg ((cfg.map Prod.fst).get ⟨i, hi⟩) hmem
      refine ⟨(cfg.map Prod.fst).get ⟨i, hi⟩, a, hcmd, hamem, ?_⟩
      simp only [processVoiceCommand]
      rw [if_pos hgt, hcmd]
      rw [show (some ((cfg.map Prod.fst).get ⟨i, hi⟩)).bind (lookupCommandAction cfg)
          = lookupCommandAction cfg ((cfg.map Prod.fst).get ⟨i, hi⟩) from rfl, ha]
  · intro hle
    simp only [processVoiceCommand]
    rw [if_neg (not_lt.mpr hle)]

/-- C6 witness: with the one-command catalog `{"a": action}` and the
utterance `"a"`, the best score `1` exceeds `0.6` and the bound action is
executed. -/
theorem processVoiceCommand_threshold_witness :
    ∃ (c : List Char) (a : ℕ),
      (findBestMatch ['a'] (([(['a'], 0)] : List (List Char × ℕ)).map Prod.fst)).command
        = some c ∧
      (c, a) ∈ ([(['a'], 0)] : List (List Char × ℕ)) ∧
      processVoiceCommand ([(['a'], 0)] : List (List Char × ℕ)) ['a']
        = VoiceOutcome.executed (some c) (some a) :=
  (processVoiceCommand_threshold [(['a'], 0)] ['a']).1
    (by
      rw [show ([(['a'], 0)] : List (List Char × ℕ)).map Prod.fst = [['a']] from rfl,
        findBestMatch_single_a]
      norm_num)

/-- C7: for every input string, `findBestMatch` with the empty catalog
returns the phrase absent (`null`) and score exactly `0`. -/
theorem findBestMatch_empty_catalog (input : List Char) :
    findBestMatch input [] = { command := none, score := 0 } := rfl

/-- C8: identical strings always have similarity exactly `1`, including
the two empty strings (the `longer.length === 0` branch). -/
theorem calculateSimilarity_identical :
    (∀ s : List Char, calculateSimilarity s s = 1) ∧
      calculateSimilarity [] [] = 1 :=
  ⟨calculateSimilarity_self_eq_one, calculateSimilarity_self_eq_one []⟩

/-- C9: the DP-table construction of `levenshteinDistance` never accesses
the table out of bounds: the fallible step-by-step re-execution of its
loops succeeds on every pair of strings and returns exactly the value of
the function, so the matcher is total and well-defined on all inputs. -/
theorem levenshteinDistance_total_in_bounds (s1 s2 : List Char) :
    levenshteinDistanceRun s1 s2 = some (levenshteinDistance s1 s2) :=
  levenshteinDistanceRun_eq s1 s2

/-- C10: the score returned by `findBestMatch` dominates the similarity
of every catalog candidate and is at least `0`; when a phrase is
returned it belongs to the catalog and the score is exactly its
similarity to the input. -/
theorem findBestMatch_score_dominates (input : List Char) (cs : List (List Char)) :
    0 ≤ (findBestMatch input cs).score ∧
      (∀ c ∈ cs, calculateSimilarity input c ≤ (findBestMatch input cs).score) ∧
      (∀ c, (findBestMatch input cs).command = some c →
        c ∈ cs ∧ (findBestMatch input cs).score = calculateSimilarity input c) :=
  ⟨findBestMatch_score_nonneg input cs, findBestMatch_score_is_max input cs,
    fun c h => findBestMatch_command_spec input cs c h⟩

/-- C10 witness: the membership part applied at input `"a"` and catalog
`["a"]`. -/
theorem findBestMatch_score_dominates_witness :
    ['a'] ∈ ([['a']] : List (List Char)) ∧
      (findBestMatch ['a'] [['a']]).score = calculateSimilarity ['a'] ['a'] :=
  (findBestMatch_score_dominates ['a'] [['a']]).2.2 ['a'] (by rw [findBestMatch_single_a])

end PortfolioMatcher
